import Mathlib

/-!
Verification of the extraction-and-matching core of the cold-email
generator (sources: `utils.py`, `rag_system.py`, `resume_parser.py`,
`job_extractor.py`).

set_option maxRecDepth 10000

Strings are embedded as `List Char`.  Python's ASCII-range character
classes (`\w`, `\s`, `str.lower`, `str.strip`) are modelled on that
representation; numeric results (`match_percentage`) are modelled with
exact rational arithmetic, with Python's `round(x, 2)` modelled as
round-half-to-even on the exact rational value.
-/

/-- Strings of the embedded program: lists of characters. -/
abbrev Chars := List Char

/-- Coerce a Lean string literal into the embedded representation. -/
def str (s : String) : Chars := s.toList

/-- Python `\s` (ASCII range): space, tab, newline, carriage return,
vertical tab, form feed. -/
def wsPy (c : Char) : Bool :=
  c = ' ' || c = '\t' || c = '\n' || c = '\r' || c = '\x0b' || c = '\x0c'

/-- Python `\w` (ASCII range): letters, digits, underscore. -/
def wordPy (c : Char) : Bool :=
  c.isAlpha || c.isDigit || c = '_'

/-- Python `str.lower` (ASCII range), characterwise. -/
def lowerStr (s : Chars) : Chars := s.map Char.toLower

/-- Python's substring test `p in s`. -/
def containsSub (p : Chars) : Chars → Bool
  | [] => p.isEmpty
  | c :: t => p.isPrefixOf (c :: t) || containsSub p t

/-- Python `str.strip` for whitespace: drop leading and trailing runs. -/
def stripPy (s : Chars) : Chars :=
  ((s.dropWhile wsPy).reverse.dropWhile wsPy).reverse

/-- Scanner for `collapseWs`: `prevWs` records whether the previous
character was whitespace; the first whitespace of a run becomes `' '`
and the rest of the run is dropped. -/
def collapseWsGo (prevWs : Bool) : Chars → Chars
  | [] => []
  | c :: cs =>
    if wsPy c then
      (if prevWs then collapseWsGo true cs else ' ' :: collapseWsGo true cs)
    else c :: collapseWsGo false cs

/-- First stage of `clean_text`: `re.sub(r'\s+', ' ', text)` — every
maximal run of whitespace becomes a single space. -/
def collapseWs (s : Chars) : Chars := collapseWsGo false s

/-- The character class kept by `clean_text`'s second substitution
`re.sub(r'[^\w\s\.\,\!\?\:\;\-\(\)]', '', text)`. -/
def allowedPy (c : Char) : Bool :=
  wordPy c || wsPy c ||
    (c = '.' || c = ',' || c = '!' || c = '?' || c = ':' || c = ';' ||
     c = '-' || c = '(' || c = ')')

/-- Model of `utils.clean_text`: empty input short-circuits to `""`; otherwise
collapse whitespace runs to single spaces, delete characters outside the
allowed class, and strip both ends. -/
def clean_text (text : Chars) : Chars :=
  if text.isEmpty then []
  else stripPy ((collapseWs text).filter allowedPy)

/-- The fixed skill vocabulary of `utils.extract_skills_from_text`. -/
def skill_keywords : List Chars :=
  [str "python", str "java", str "javascript", str "react", str "angular",
   str "vue", str "node.js", str "sql", str "mongodb", str "postgresql",
   str "mysql", str "aws", str "azure", str "gcp", str "docker",
   str "kubernetes", str "git", str "machine learning", str "ai",
   str "deep learning", str "tensorflow", str "pytorch", str "scikit-learn",
   str "pandas", str "numpy", str "matplotlib", str "html", str "css",
   str "bootstrap", str "jquery", str "django", str "flask", str "fastapi",
   str "spring", str "hibernate", str "maven", str "gradle", str "jenkins",
   str "ci/cd", str "agile", str "scrum", str "jira", str "confluence",
   str "rest api", str "graphql", str "microservices", str "serverless",
   str "lambda", str "s3", str "ec2", str "rds"]

/-- Model of `utils.extract_skills_from_text`: lower-case the input once and keep
every vocabulary term occurring as a substring.  The Python source
returns `list(set(found_skills))`; since the vocabulary has no
duplicates, that is a permutation (in an unspecified, hash-determined
order) of the filtered list modelled here, so all properties are stated
at the level of membership. -/
def extract_skills_from_text (text : Chars) : List Chars :=
  skill_keywords.filter (fun skill => containsSub skill (lowerStr text))

/-- Normalization applied by `get_skill_matches` to each skill:
`skill.lower().strip()`. -/
def normSkill (s : Chars) : Chars := stripPy (lowerStr s)

/-- The substring criterion of `get_skill_matches`'s inner loop:
`job_skill in resume_skill or resume_skill in job_skill` (both already
normalized). -/
def skillHit (jobSkill resumeSkill : Chars) : Bool :=
  containsSub jobSkill resumeSkill || containsSub resumeSkill jobSkill

/-- Round `a / b` (with `b > 0`) half to even, by integer arithmetic. -/
def roundHalfEvenInt (a b : ℤ) : ℤ :=
  let f := a.fdiv b
  let r2 := 2 * (a - f * b)
  if r2 < b then f else if b < r2 then f + 1 else if f % 2 = 0 then f else f + 1

/-- Python `round(x, 2)` applied to the exact rational `a / b`, computed
by integer arithmetic (CPython rounds the nearest binary double; on the
exactly representable values arising in these claims the two agree). -/
def pyRound2 (a b : ℤ) : ℚ := Rat.divInt (roundHalfEvenInt (100 * a) b) 100

/-- Round half to even, stated on a rational (specification form). -/
def roundHE (x : ℚ) : ℤ :=
  if Int.fract x < 1/2 then ⌊x⌋
  else if 1/2 < Int.fract x then ⌊x⌋ + 1
  else if ⌊x⌋ % 2 = 0 then ⌊x⌋ else ⌊x⌋ + 1

/-- Specification form of `round(·, 2)` half to even, on a rational. -/
def round2Q (x : ℚ) : ℚ := (roundHE (x * 100) : ℚ) / 100

/-- Result record of `rag_system.RAGSystem.get_skill_matches`. -/
structure SkillMatchResult where
  matched_skills : List Chars
  missing_skills : List Chars
  match_percentage : ℚ
deriving DecidableEq

/-- The `matched_skills` list built by `get_skill_matches`' nested
loops: each normalized job skill for which the inner scan over the
normalized résumé skills finds a `skillHit` (the `break` makes one
appended copy per job-skill occurrence, in job order). -/
def matchedOf (job_skills resume_skills : List Chars) : List Chars :=
  (job_skills.map normSkill).filter
    (fun j => (resume_skills.map normSkill).any (fun r => skillHit j r))

/-- The `missing_skills` comprehension of `get_skill_matches`:
`[skill for skill in job_skills_normalized if skill not in matched_skills]`. -/
def missingOf (job_skills resume_skills : List Chars) : List Chars :=
  (job_skills.map normSkill).filter
    (fun j => !((matchedOf job_skills resume_skills).contains j))

/-- Model of `rag_system.RAGSystem.get_skill_matches`: empty job list
short-circuits; otherwise both lists are normalized, each job skill that
substring-matches some résumé skill is collected (in job order), the
rest are missing, and the percentage is `round((m/n)*100, 2)`. -/
def get_skill_matches (job_skills resume_skills : List Chars) :
    SkillMatchResult :=
  if job_skills.isEmpty then ⟨[], [], 0⟩
  else
    ⟨matchedOf job_skills resume_skills,
     missingOf job_skills resume_skills,
     pyRound2 ((matchedOf job_skills resume_skills).length * 100)
       (job_skills.map normSkill).length⟩

/-- A résumé experience record, a Python dict with optional fields
(`exp.get(k)` is `none` when the key is absent). -/
structure ExpEntry where
  title : Option Chars
  company : Option Chars
  period : Option Chars
  description : Option Chars
  relevance_score : Option Nat
deriving DecidableEq

/-- Scanner for `splitWs`; `acc` holds the current token reversed. -/
def splitWsGo (acc : Chars) : Chars → List Chars
  | [] => if acc.isEmpty then [] else [acc.reverse]
  | c :: cs =>
    if wsPy c then
      (if acc.isEmpty then splitWsGo [] cs else acc.reverse :: splitWsGo [] cs)
    else splitWsGo (c :: acc) cs

/-- Python `str.split()` with no argument: split on whitespace runs,
dropping empty tokens. -/
def splitWs (s : Chars) : List Chars := splitWsGo [] s

/-- Title check of `get_relevant_experience`: the entry's `title` is
present and truthy and some requirement keyword occurs in its
lowercasing. -/
def titleHit (kws : List Chars) (e : ExpEntry) : Bool :=
  match e.title with
  | some t => !t.isEmpty && kws.any (fun k => containsSub k (lowerStr t))
  | none => false

/-- Description check of `get_relevant_experience`, analogous. -/
def descHit (kws : List Chars) (e : ExpEntry) : Bool :=
  match e.description with
  | some d => !d.isEmpty && kws.any (fun k => containsSub k (lowerStr d))
  | none => false

/-- The `relevance_score` computed per entry: `+2` for a title hit,
`+1` for a description hit. -/
def scoreExp (kws : List Chars) (e : ExpEntry) : Nat :=
  (if titleHit kws e then 2 else 0) + (if descHit kws e then 1 else 0)

/-- The keyword list of `get_relevant_experience`:
`job_requirements.lower().split()`. -/
def kwsOf (req : Chars) : List Chars := splitWs (lowerStr req)

/-- The per-entry score of `get_relevant_experience req`, in terms of
the raw requirements text. -/
def scoreOf (req : Chars) (e : ExpEntry) : Nat := scoreExp (kwsOf req) e

/-- The in-place dict mutation `exp['relevance_score'] = relevance_score`
performed on every entry whose score is positive. -/
def updateScore (kws : List Chars) (e : ExpEntry) : ExpEntry :=
  if 0 < scoreExp kws e then
    { e with relevance_score := some (scoreExp kws e) }
  else e

/-- The state of `resume_experience`'s entries after the scoring loop. -/
def updOf (req : Chars) (es : List ExpEntry) : List ExpEntry :=
  es.map (updateScore (kwsOf req))

/-- The `relevant_experience` list: entries with positive score, in
original order (each already carrying its `relevance_score`). -/
def relOf (req : Chars) (es : List ExpEntry) : List ExpEntry :=
  (updOf req es).filter (fun e => decide (0 < scoreExp (kwsOf req) e))

/-- Sort key: `x.get('relevance_score', 0)`. -/
def keyOf (e : ExpEntry) : Nat := e.relevance_score.getD 0

/-- Insert an entry into a descending-sorted accumulator after every
entry of greater-or-equal key (so equal keys keep first-come order). -/
def insertDesc (e : ExpEntry) : List ExpEntry → List ExpEntry
  | [] => [e]
  | x :: xs => if keyOf x < keyOf e then e :: x :: xs else x :: insertDesc e xs

/-- Python's stable `list.sort(key=lambda x: x.get('relevance_score', 0),
reverse=True)`: a left-to-right stable insertion sort by descending key. -/
def sortByScoreDesc (l : List ExpEntry) : List ExpEntry :=
  l.foldl (fun acc e => insertDesc e acc) []

/-- Model of `rag_system.RAGSystem.get_relevant_experience`.  Python mutates the
entry dicts in place and returns (aliases of) the top three; the model
returns the pair (state of the input entries after the call, returned
list). -/
def get_relevant_experience (job_requirements : Chars)
    (resume_experience : List ExpEntry) : List ExpEntry × List ExpEntry :=
  if resume_experience.isEmpty then (resume_experience, [])
  else
    (updOf job_requirements resume_experience,
     (sortByScoreDesc (relOf job_requirements resume_experience)).take 3)

/-- Entries of a list whose sort key equals `k`, in list order. -/
def filtK (k : Nat) (l : List ExpEntry) : List ExpEntry :=
  l.filter (fun e => keyOf e == k)

/-- The labelled résumé sections of `ResumeParser.section_keywords`,
plus the implicit `general` bucket for lines before any header. -/
inductive SectionTag where
  | education | experience | skills | projects | contact | general
deriving DecidableEq

/-- Table `ResumeParser.section_keywords`, in Python dict insertion order. -/
def section_keywords : List (SectionTag × List Chars) :=
  [(SectionTag.education,
     [str "education", str "academic", str "degree", str "university",
      str "college", str "school"]),
   (SectionTag.experience,
     [str "experience", str "work history", str "employment", str "career",
      str "job"]),
   (SectionTag.skills,
     [str "skills", str "technical skills", str "competencies",
      str "technologies"]),
   (SectionTag.projects,
     [str "projects", str "portfolio", str "achievements",
      str "accomplishments"]),
   (SectionTag.contact,
     [str "contact", str "email", str "phone", str "address",
      str "linkedin"])]

/-- The first section (in table order) one of whose keywords occurs in
the lowercased line, as in `_extract_sections`' inner loop. -/
def lineSectionTag (line : Chars) : Option SectionTag :=
  (section_keywords.find?
      (fun p => p.2.any (fun kw => containsSub (lowerStr kw) (lowerStr line)))).map
    Prod.fst

/-- Python `'\n'.join(lines)`. -/
def joinNl (ls : List Chars) : Chars := List.intercalate ['\n'] ls

/-- Update one key of the `sections` dict. -/
def setSection (m : SectionTag → Option Chars) (k : SectionTag) (v : Chars) :
    SectionTag → Option Chars :=
  fun t => if t = k then some v else m t

/-- The loop state of `_extract_sections`: current section, accumulated
content lines, and the `sections` dict built so far. -/
structure SecState where
  cur : SectionTag
  content : List Chars
  secs : SectionTag → Option Chars

/-- One line of `_extract_sections`' loop: strip, skip empties, switch
section on a keyword line (flushing the previous non-general section's
accumulated content), else accumulate. -/
def secStep (st : SecState) (rawLine : Chars) : SecState :=
  let line := stripPy rawLine
  if line.isEmpty then st
  else
    match lineSectionTag line with
    | some tag =>
      ⟨tag, [],
        if st.cur ≠ SectionTag.general
        then setSection st.secs st.cur (joinNl st.content) else st.secs⟩
    | none => ⟨st.cur, st.content ++ [line], st.secs⟩

/-- Model of `ResumeParser._extract_sections`: split into lines, run the state
machine, and flush the trailing content (under whatever section is
current, including `general`). -/
def extract_sections (text : Chars) : SectionTag → Option Chars :=
  let fin := (text.splitOn '\n').foldl secStep
    ⟨SectionTag.general, [], fun _ => none⟩
  if fin.content.isEmpty then fin.secs
  else setSection fin.secs fin.cur (joinNl fin.content)

/-- An education record: a Python dict with optional fields. -/
structure EduEntry where
  institution : Option Chars
  degree : Option Chars
  year : Option Chars
  gpa : Option Chars
deriving DecidableEq

/-- The empty education dict `{}`. -/
def emptyEdu : EduEntry := ⟨none, none, none, none⟩

/-- The empty experience dict `{}`. -/
def emptyExp : ExpEntry := ⟨none, none, none, none, none⟩

/-- Word-boundary context: position 0 or previous character not `\w`. -/
def prevBoundary : Option Char → Bool
  | none => true
  | some c => !wordPy c

/-- Case-insensitive whole-word match of `w` (given lowercase) at the
head of `l`, including the trailing `\b`. -/
def wordAtCI (w : Chars) (l : Chars) : Bool :=
  (lowerStr (l.take w.length) == w)
    && (match l.drop w.length with
        | [] => true
        | c :: _ => !wordPy c)

/-- Case-sensitive whole-word match of `w` at the head of `l`,
including the trailing `\b`. -/
def wordAtCS (w : Chars) (l : Chars) : Bool :=
  w.isPrefixOf l
    && (match l.drop w.length with
        | [] => true
        | c :: _ => !wordPy c)

/-- Scanner for `re.search(r'\b(w1|w2|...)\b', line, re.IGNORECASE)`. -/
def searchWordGo (ws : List Chars) (prev : Option Char) : Chars → Bool
  | [] => false
  | c :: rest =>
    (prevBoundary prev && ws.any (fun w => wordAtCI w (c :: rest)))
      || searchWordGo ws (some c) rest

/-- Model of `re.search(r'\b(w1|w2|...)\b', line, re.IGNORECASE)` as a Boolean. -/
def searchWordAnyCI (ws : List Chars) (l : Chars) : Bool := searchWordGo ws none l

/-- A year token `20\d{2}|19\d{2}` at the head of `l`, with trailing
`\b`. -/
def yearAt : Chars → Bool
  | c1 :: c2 :: c3 :: c4 :: rest =>
    (((c1 = '2' && c2 = '0') || (c1 = '1' && c2 = '9'))
        && c3.isDigit && c4.isDigit)
      && (match rest with | [] => true | c :: _ => !wordPy c)
  | _ => false

/-- Scanner for `re.search(r'\b(20\d{2}|19\d{2})\b', line)`. -/
def searchYearGo (prev : Option Char) : Chars → Bool
  | [] => false
  | c :: rest =>
    (prevBoundary prev && yearAt (c :: rest)) || searchYearGo (some c) rest

/-- Model of `re.search(r'\b(20\d{2}|19\d{2})\b', line)` as a Boolean. -/
def searchYear (l : Chars) : Bool := searchYearGo none l

/-- Second token of the period pattern: a year, `Present` or `Current`
(case-sensitive), with word boundaries. -/
def secondTokAt (l : Chars) : Bool :=
  yearAt l || wordAtCS (str "Present") l || wordAtCS (str "Current") l

/-- Scan for the second token of the period pattern. -/
def searchSecondGo (prev : Option Char) : Chars → Bool
  | [] => false
  | c :: rest =>
    (prevBoundary prev && secondTokAt (c :: rest)) || searchSecondGo (some c) rest

/-- Scanner for the experience-entry trigger
`re.search(r'\b(20\d{2}|19\d{2})\b.*\b(20\d{2}|19\d{2}|Present|Current)\b', line)`:
a bounded year token followed, at any distance, by a bounded second
token. -/
def searchPeriodGo (prev : Option Char) : Chars → Bool
  | [] => false
  | c :: rest =>
    (prevBoundary prev
      && (match c :: rest with
          | c1 :: c2 :: c3 :: c4 :: rest4 =>
            yearAt (c1 :: c2 :: c3 :: c4 :: rest4)
              && searchSecondGo (some c4) rest4
          | _ => false))
    || searchPeriodGo (some c) rest

/-- The period regex of `_extract_experience`, as a Boolean. -/
def searchPeriod (l : Chars) : Bool := searchPeriodGo none l

/-- One line of `_extract_education`'s loop. -/
def eduStep (st : EduEntry × List EduEntry) (rawLine : Chars) :
    EduEntry × List EduEntry :=
  let line := stripPy rawLine
  if line.isEmpty then st
  else if searchWordAnyCI
      [str "university", str "college", str "school", str "institute",
       str "academy"] line then
    (⟨some line, none, none, none⟩,
     if st.1 == emptyEdu then st.2 else st.2 ++ [st.1])
  else if containsSub (str "degree") (lowerStr line)
      || containsSub (str "bachelor") (lowerStr line)
      || containsSub (str "master") (lowerStr line) then
    ({ st.1 with degree := some line }, st.2)
  else if searchYear line then
    ({ st.1 with year := some line }, st.2)
  else if containsSub (str "gpa") (lowerStr line) then
    ({ st.1 with gpa := some line }, st.2)
  else st

/-- Model of `ResumeParser._extract_education`. -/
def extract_education (education_text : Chars) : List EduEntry :=
  if education_text.isEmpty then []
  else
    let fin := (education_text.splitOn '\n').foldl eduStep (emptyEdu, [])
    if fin.1 == emptyEdu then fin.2 else fin.2 ++ [fin.1]

/-- One line of `_extract_experience`'s loop. -/
def expStep (st : ExpEntry × List ExpEntry) (rawLine : Chars) :
    ExpEntry × List ExpEntry :=
  let line := stripPy rawLine
  if line.isEmpty then st
  else if searchPeriod line then
    (⟨none, none, some line, none, none⟩,
     if st.1 == emptyExp then st.2 else st.2 ++ [st.1])
  else if [str "engineer", str "developer", str "manager", str "analyst",
      str "specialist"].any (fun k => containsSub k (lowerStr line)) then
    (if st.1.title = none then { st.1 with title := some line } else st.1, st.2)
  else if containsSub (str "@") line || containsSub (str "www.") line then
    (if st.1.company = none then { st.1 with company := some line } else st.1,
     st.2)
  else if 20 < line.length && !(searchYear line) then
    (match st.1.description with
     | none => { st.1 with description := some line }
     | some d => { st.1 with description := some (d ++ ' ' :: line) }, st.2)
  else st

/-- Model of `ResumeParser._extract_experience`. -/
def extract_experience (experience_text : Chars) : List ExpEntry :=
  if experience_text.isEmpty then []
  else
    let fin := (experience_text.splitOn '\n').foldl expStep (emptyExp, [])
    if fin.1 == emptyExp then fin.2 else fin.2 ++ [fin.1]

/-- The education leg of `_parse_resume_text`: clean the text, segment
into sections, and run the education extractor on the education
bucket (`sections.get('education', '')`). -/
def resumeEducationPipeline (text : Chars) : List EduEntry :=
  extract_education ((extract_sections (clean_text text) SectionTag.education).getD [])

/-- The experience leg of `_parse_resume_text`, analogous. -/
def resumeExperiencePipeline (text : Chars) : List ExpEntry :=
  extract_experience ((extract_sections (clean_text text) SectionTag.experience).getD [])

/-- The input of the spec's section-segmentation example. -/
def c2text : Chars := str "Education\nMIT\n2020\nExperience\nEngineer at X\n2019-2021"

/-- Constant `utils.SUPPORTED_FILE_TYPES`. -/
def SUPPORTED_FILE_TYPES : List Chars := [str ".pdf", str ".docx", str ".doc"]

/-- Constant `utils.MAX_FILE_SIZE` (10 MiB). -/
def MAX_FILE_SIZE : Nat := 10 * 1024 * 1024

/-- An uploaded file as the code uses it: a name and a byte size (the
decoded content is supplied by external decoders). -/
structure UploadedFile where
  name : Chars
  size : Nat
deriving DecidableEq

/-- Model of `os.path.splitext(p)[1]`: the suffix of the basename starting at
its last dot, unless every basename character before that dot is itself
a dot (so dotfiles like `.bashrc` have no extension). -/
def splitextExt (p : Chars) : Chars :=
  let b := (p.reverse.takeWhile (fun c => c ≠ '/')).reverse
  let revb := b.reverse
  let afterRev := revb.takeWhile (fun c => c ≠ '.')
  match revb.dropWhile (fun c => c ≠ '.') with
  | [] => []
  | _ :: beforeRev =>
    if beforeRev.any (fun c => c ≠ '.') then '.' :: afterRev.reverse else []

/-- Model of `utils.get_file_extension`: lowercased `splitext` extension. -/
def get_file_extension (filename : Chars) : Chars := lowerStr (splitextExt filename)

/-- The dict returned by `utils.validate_file_upload` (the error
messages, Chinese in the source, are abbreviated — their text is not
load-bearing). -/
structure ValidationResult where
  valid : Bool
  error : Option Chars
deriving DecidableEq

/-- Model of `utils.validate_file_upload`: missing file, unsupported extension
and oversize are rejected in that order. -/
def validate_file_upload : Option UploadedFile → ValidationResult
  | none => ⟨false, some (str "no file selected")⟩
  | some f =>
    if !(SUPPORTED_FILE_TYPES.contains (get_file_extension f.name)) then
      ⟨false, some (str "unsupported file type")⟩
    else if MAX_FILE_SIZE < f.size then
      ⟨false, some (str "file size over limit")⟩
    else ⟨true, none⟩

/-- Model of `ResumeParser.parse_resume`, parameterized by the external PDF and
Word text decoders; `.pdf` goes to the PDF decoder, `.docx`/`.doc` to
the Word decoder, anything else raises (the outer `except` re-wraps
every failure, so failures stay failures).  Of `_parse_resume_text`'s
output only the claim-relevant parts are carried: the education and
experience buckets and the cleaned text. -/
def parse_resume (decodePdf decodeDocx : UploadedFile → Except Chars Chars)
    (f : UploadedFile) : Except Chars (List EduEntry × List ExpEntry × Chars) :=
  let ext := get_file_extension f.name
  if ext = str ".pdf" then
    match decodePdf f with
    | Except.ok text =>
      Except.ok (resumeEducationPipeline text, resumeExperiencePipeline text,
        clean_text text)
    | Except.error e => Except.error e
  else if ext = str ".docx" || ext = str ".doc" then
    match decodeDocx f with
    | Except.ok text =>
      Except.ok (resumeEducationPipeline text, resumeExperiencePipeline text,
        clean_text text)
    | Except.error e => Except.error e
  else Except.error (str "unsupported file format")

/-- Python `str.replace(pat, '')` with fuel: delete the non-overlapping
occurrences of `pat`, scanning left to right (a no-op for empty `pat`,
which the source never uses). -/
def eraseOccsFuel (pat : Chars) : Nat → Chars → Chars
  | 0, s => s
  | _ + 1, [] => []
  | n + 1, c :: cs =>
    if pat.isPrefixOf (c :: cs) && !pat.isEmpty then
      eraseOccsFuel pat n ((c :: cs).drop pat.length)
    else c :: eraseOccsFuel pat n cs

/-- Python `s.replace(pat, '')`. -/
def eraseOccs (pat s : Chars) : Chars := eraseOccsFuel pat s.length s

/-- Locate the first `"://"` and return what follows it. -/
def afterSchemeSep : Chars → Option Chars
  | [] => none
  | c :: cs =>
    if (str "://").isPrefixOf (c :: cs) then some ((c :: cs).drop 3)
    else afterSchemeSep cs

/-- Model of `urlparse(url).netloc`, modelled for the absolute URLs this code is
called with: the text between `"://"` and the next `/`, `?` or `#`;
empty when the URL has no scheme separator. -/
def urlNetloc (url : Chars) : Chars :=
  match afterSchemeSep url with
  | some rest => rest.takeWhile (fun c => c ≠ '/' && c ≠ '?' && c ≠ '#')
  | none => []

/-- Python `str.title` (ASCII range): a letter is uppercased after a
non-letter and lowercased after a letter. -/
def titleCaseGo (prevAlpha : Bool) : Chars → Chars
  | [] => []
  | c :: cs =>
    (if c.isAlpha then (if prevAlpha then c.toLower else c.toUpper) else c)
      :: titleCaseGo c.isAlpha cs

/-- Python `s.title()`. -/
def titleCase (s : Chars) : Chars := titleCaseGo false s

/-- Model of `utils.extract_company_name_from_url`: lowercase the netloc, strip
`www.`, `.com` and `.org` in that order, special-case domains that still
contain a job-board name, else title-case the first label.  (The
`except` arm returning "Unknown Company" is unreachable for string
inputs, since `urlparse` does not raise on them.) -/
def extract_company_name_from_url (url : Chars) : Chars :=
  let domain := lowerStr (urlNetloc url)
  let domain :=
    eraseOccs (str ".org") (eraseOccs (str ".com") (eraseOccs (str "www.") domain))
  if containsSub (str "linkedin.com") domain then str "LinkedIn"
  else if containsSub (str "indeed.com") domain then str "Indeed"
  else if containsSub (str "glassdoor.com") domain then str "Glassdoor"
  else titleCase (domain.takeWhile (fun c => c ≠ '.'))

/-- A parsed page as `_extract_job_title` consumes it: the result text
of `soup.select_one` per CSS selector, and the text of
`soup.find('title')`. -/
structure Soup where
  selectOne : Chars → Option Chars
  findTitle : Option Chars

/-- The selector cascade of `_extract_job_title`, in order. -/
def title_selectors : List Chars :=
  [str "h1[class*=\"title\"]", str "h1[class*=\"job\"]",
   str "h1[class*=\"position\"]", str ".job-title", str ".position-title",
   str "h1", str "title"]

/-- The `for selector in title_selectors` loop: first selector whose
element exists and whose cleaned text passes the `title and
len(title) > 3` gate wins. -/
def cascadeTitle (s : Soup) : List Chars → Option Chars
  | [] => none
  | sel :: rest =>
    match s.selectOne sel with
    | some txt =>
      let t := clean_text txt
      if !t.isEmpty && decide (3 < t.length) then some t
      else cascadeTitle s rest
    | none => cascadeTitle s rest

/-- One of `Indeed`, `LinkedIn`, `Glassdoor` starting here
(case-sensitive, as in the suffix regex). -/
def brandPrefixAt (l : Chars) : Bool :=
  (str "Indeed").isPrefixOf l || (str "LinkedIn").isPrefixOf l
    || (str "Glassdoor").isPrefixOf l

/-- Whitespace, then a brand name. -/
def brandAfterWs : Chars → Bool
  | [] => false
  | c :: cs => brandPrefixAt (c :: cs) || (wsPy c && brandAfterWs cs)

/-- The group `(Indeed|LinkedIn|Glassdoor|.*\.com)` preceded by `\s*`:
either whitespace then a brand, or `.com` occurring anywhere later. -/
def sufCond (rest : Chars) : Bool :=
  brandAfterWs rest || containsSub (str ".com") rest

/-- Model of `\s*[-|]\s*(Indeed|LinkedIn|Glassdoor|.*\.com)` matching at this
position. -/
def matchSuffixFrom : Chars → Bool
  | [] => false
  | c :: cs =>
    if c = '-' || c = '|' then sufCond cs
    else if wsPy c then matchSuffixFrom cs
    else false

/-- Model of `re.sub(r'\s*[-|]\s*(Indeed|LinkedIn|Glassdoor|.*\.com).*', '', t)`
on newline-free text (which cleaned titles are): the trailing `.*` makes
any match run to the end of the string, so the substitution deletes
everything from the leftmost match start. -/
def stripTitleSuffix : Chars → Chars
  | [] => []
  | c :: cs => if matchSuffixFrom (c :: cs) then [] else c :: stripTitleSuffix cs

/-- Model of `JobExtractor._extract_job_title`: selector cascade, then the page
`<title>` with known job-board suffixes stripped, then a sentinel. -/
def extract_job_title (s : Soup) : Chars :=
  match cascadeTitle s title_selectors with
  | some t => t
  | none =>
    match s.findTitle with
    | some txt => stripTitleSuffix (clean_text txt)
    | none => str "职位标题未找到"

/-! Theorems. -/

example : clean_text (str "  Hello   World!! ") = str "Hello World!!" := by decide

example : clean_text (str "a @ b") = str "a  b" := by decide

example :
    (get_skill_matches [str "python"] [str "Python Developer"]).matched_skills
      = [str "python"] := by decide

example :
    (get_skill_matches [str "python", str "sql"] [str "python"]).missing_skills
        = [str "sql"]
      ∧ (get_skill_matches [str "python", str "sql"] [str "python"]).match_percentage
        = 50 := by decide

theorem containsSub_iff (p s : Chars) : containsSub p s = true ↔ p <:+: s := by
  induction s with
  | nil =>
    simp [containsSub, List.isEmpty_iff]
  | cons c t ih =>
    rw [List.infix_cons_iff]
    simp only [containsSub, Bool.or_eq_true, ih]
    simp [ List.isPrefixOf_iff_prefix]

theorem roundHalfEvenInt_eq (a : ℤ) (b : ℕ) (hb : 0 < b) :
    roundHalfEvenInt a b = roundHE ((a : ℚ) / (b : ℚ)) := by
  have hbQ : (0 : ℚ) < (b : ℚ) := by exact_mod_cast hb
  have hfl : a.fdiv (b : ℤ) = ⌊(a : ℚ) / (b : ℚ)⌋ := by
    rw [Int.fdiv_eq_ediv _ (by positivity)]
    rw [Rat.floor_intCast_div_natCast]
  have hfr : Int.fract ((a : ℚ) / (b : ℚ))
      = ((a - a.fdiv (b : ℤ) * (b : ℤ) : ℤ) : ℚ) / (b : ℚ) := by
    rw [Int.fract, hfl]
    push_cast
    field_simp
    ring
  have h1 : (2 * (a - a.fdiv (b : ℤ) * (b : ℤ)) < (b : ℤ)) ↔
      (Int.fract ((a : ℚ) / (b : ℚ)) < 1/2) := by
    rw [hfr, div_lt_iff₀ hbQ]
    constructor
    · intro h
      have h' : ((2 * (a - a.fdiv (b : ℤ) * (b : ℤ)) : ℤ) : ℚ) < (b : ℚ) := by
        exact_mod_cast h
      push_cast at h' ⊢
      nlinarith
    · intro h
      have h' : ((2 * (a - a.fdiv (b : ℤ) * (b : ℤ)) : ℤ) : ℚ) < (b : ℚ) := by
        push_cast at h ⊢
        nlinarith
      exact_mod_cast h'
  have h2 : ((b : ℤ) < 2 * (a - a.fdiv (b : ℤ) * (b : ℤ))) ↔
      ((1:ℚ)/2 < Int.fract ((a : ℚ) / (b : ℚ))) := by
    rw [hfr, lt_div_iff₀ hbQ]
    constructor
    · intro h
      have h' : ((b : ℤ) : ℚ) < ((2 * (a - a.fdiv (b : ℤ) * (b : ℤ)) : ℤ) : ℚ) := by
        exact_mod_cast h
      push_cast at h' ⊢
      nlinarith
    · intro h
      have h' : ((b : ℤ) : ℚ) < ((2 * (a - a.fdiv (b : ℤ) * (b : ℤ)) : ℤ) : ℚ) := by
        push_cast at h ⊢
        nlinarith
      exact_mod_cast h'
  unfold roundHalfEvenInt roundHE
  simp only [← hfl, h1, h2]

theorem pyRound2_eq (a : ℤ) (b : ℕ) (hb : 0 < b) :
    pyRound2 a b = round2Q ((a : ℚ) / (b : ℚ)) := by
  have hbQ : (0 : ℚ) < (b : ℚ) := by exact_mod_cast hb
  rw [pyRound2, round2Q, Rat.divInt_eq_div]
  rw [roundHalfEvenInt_eq _ _ hb]
  congr 2
  push_cast
  field_simp
  ring_nf

theorem le_roundHE {n : ℤ} {x : ℚ} (h : (n : ℚ) ≤ x) : n ≤ roundHE x := by
  have hf : n ≤ ⌊x⌋ := Int.le_floor.mpr h
  unfold roundHE
  split_ifs <;> omega

theorem roundHE_le {x : ℚ} {n : ℤ} (h : x ≤ (n : ℚ)) : roundHE x ≤ n := by
  have hf : ⌊x⌋ ≤ n := by
    have := Int.floor_mono h
    simpa using this
  have hfr : 0 ≤ Int.fract x := Int.fract_nonneg x
  unfold roundHE
  split_ifs with h1 h2 h3
  · exact hf
  · rcases lt_or_eq_of_le hf with h' | h'
    · omega
    · exfalso
      have : x ≤ (⌊x⌋ : ℚ) := by rw [h']; exact h
      have : Int.fract x ≤ 0 := by
        rw [Int.fract]
        linarith
      linarith
  · exact hf
  · rcases lt_or_eq_of_le hf with h' | h'
    · omega
    · exfalso
      have hx : x ≤ (⌊x⌋ : ℚ) := by rw [h']; exact h
      have : Int.fract x ≤ 0 := by
        rw [Int.fract]
        linarith
      have : Int.fract x < 1/2 := by linarith
      exact h1 this

theorem round2Q_nonneg {x : ℚ} (h : 0 ≤ x) : 0 ≤ round2Q x := by
  rw [round2Q]
  have : (0 : ℤ) ≤ roundHE (x * 100) := le_roundHE (by push_cast; nlinarith)
  positivity

theorem round2Q_le_100 {x : ℚ} (h : x ≤ 100) : round2Q x ≤ 100 := by
  rw [round2Q]
  have h1 : roundHE (x * 100) ≤ (10000 : ℤ) := roundHE_le (by push_cast; nlinarith)
  have h2 : ((roundHE (x * 100) : ℚ)) ≤ 10000 := by exact_mod_cast h1
  linarith

theorem length_filter_add_length_filter_not (l : List Chars) (p : Chars → Bool) :
    (l.filter p).length + (l.filter (fun a => !(p a))).length = l.length := by
  induction l with
  | nil => simp
  | cons c t ih =>
    by_cases h : p c <;> simp [List.filter_cons, h, ← ih] <;> omega

theorem get_skill_matches_ne (job res : List Chars) (h : job ≠ []) :
    get_skill_matches job res =
      ⟨matchedOf job res, missingOf job res,
        pyRound2 ((matchedOf job res).length * 100)
          (job.map normSkill).length⟩ := by
  rw [get_skill_matches, if_neg]
  simp [List.isEmpty_iff, h]

/-- C1, counterexample: with job skills `["python"]` and no résumé
skills, `get_skill_matches` already returns `match_percentage = 0`
although the job skill list is nonempty, so percentage zero does not
imply an empty job skill list. -/
theorem c1_zero_iff_counterexample :
    (get_skill_matches [str "python"] []).match_percentage = 0
      ∧ [str "python"] ≠ ([] : List Chars) :=
  ⟨by decide, by decide⟩

/-- C1 (amended): `match_percentage` is `0` when the job skill list is
empty, and otherwise equals `100 * |matched| / |job skills|` rounded to
2 decimals — a value that is also `0` whenever no job skill matches —
where a job skill counts as matched exactly when, after lowercasing and
trimming both sides, it is a substring of some résumé skill or some
résumé skill is a substring of it. -/
theorem c1_match_percentage_formula (job res : List Chars) :
    (job = [] → (get_skill_matches job res).match_percentage = 0)
    ∧ (job ≠ [] →
        (get_skill_matches job res).match_percentage
          = round2Q (100 * ((get_skill_matches job res).matched_skills.length : ℚ)
              / (job.length : ℚ)))
    ∧ (∀ j, j ∈ (get_skill_matches job res).matched_skills ↔
        j ∈ job.map normSkill ∧ ∃ r ∈ res, skillHit j (normSkill r) = true) := by
  by_cases hjob : job = []
  · subst hjob
    refine ⟨fun _ => rfl, fun h => absurd rfl h, fun j => ?_⟩
    simp [get_skill_matches]
  · have hlen : 0 < job.length := List.length_pos.mpr hjob
    rw [get_skill_matches_ne job res hjob]
    refine ⟨fun h => absurd h hjob, fun _ => ?_, fun j => ?_⟩
    · have hlen' : 0 < (job.map normSkill).length := by
        simpa using hlen
      rw [pyRound2_eq _ _ hlen']
      push_cast
      rw [List.length_map]
      ring_nf
    · rw [matchedOf, List.mem_filter]
      simp only [List.any_eq_true, List.mem_map]
      constructor
      · rintro ⟨hj, r', ⟨r, hr, rfl⟩, hhit⟩
        exact ⟨hj, r, hr, hhit⟩
      · rintro ⟨hj, r, hr, hhit⟩
        exact ⟨hj, normSkill r, ⟨r, hr, rfl⟩, hhit⟩

/-- C1 witness: instantiates the amended formula on the job list
`["python", "sql"]` against résumé list `["python"]`. -/
theorem c1_match_percentage_formula_witness :
    (get_skill_matches [str "python", str "sql"] [str "python"]).match_percentage
      = round2Q (100 * ((get_skill_matches [str "python", str "sql"]
          [str "python"]).matched_skills.length : ℚ)
          / (([str "python", str "sql"] : List Chars).length : ℚ)) :=
  (c1_match_percentage_formula [str "python", str "sql"] [str "python"]).2.1
    (by decide)

/-- C10: `get_skill_matches` partitions the normalized job-skill list:
`matched_skills` is an order-preserving sublist of it, `missing_skills`
is exactly the complementary (non-matching) normalized job skills in
order, the two lengths add up to the job-skill count, and the
percentage lies in `[0, 100]`. -/
theorem c10_skill_match_partition (job res : List Chars) :
    List.Sublist (get_skill_matches job res).matched_skills (job.map normSkill)
    ∧ (get_skill_matches job res).missing_skills
        = (job.map normSkill).filter
            (fun j => !((res.map normSkill).any (fun r => skillHit j r)))
    ∧ (get_skill_matches job res).matched_skills.length
        + (get_skill_matches job res).missing_skills.length = job.length
    ∧ 0 ≤ (get_skill_matches job res).match_percentage
    ∧ (get_skill_matches job res).match_percentage ≤ 100 := by
  by_cases hjob : job = []
  · subst hjob
    refine ⟨?_, ?_, ?_, ?_, ?_⟩ <;> simp [get_skill_matches]
  · rw [get_skill_matches_ne job res hjob]
    have hmiss : missingOf job res
        = (job.map normSkill).filter
            (fun j => !((res.map normSkill).any (fun r => skillHit j r))) := by
      rw [missingOf]
      refine List.filter_congr ?_
      intro j hj
      congr 1
      rw [matchedOf]
      simp only [List.elem_eq_mem, List.mem_filter]
      by_cases h : (res.map normSkill).any (fun r => skillHit j r) = true
      · simp [h, hj]
      · simp [h, hj]
    have hm : (matchedOf job res).length ≤ (job.map normSkill).length :=
      List.length_filter_le _ _
    have hlen' : 0 < (job.map normSkill).length := by
      simpa using List.length_pos.mpr hjob
    constructor
    · exact List.filter_sublist _
    constructor
    · exact hmiss
    constructor
    · rw [hmiss, matchedOf]
      rw [length_filter_add_length_filter_not]
      simp
    constructor
    · rw [pyRound2_eq _ _ hlen']
      apply round2Q_nonneg
      positivity
    · rw [pyRound2_eq _ _ hlen']
      apply round2Q_le_100
      rw [div_le_iff₀ (by exact_mod_cast hlen')]
      have : ((matchedOf job res).length : ℚ) ≤ ((job.map normSkill).length : ℚ) := by
        exact_mod_cast hm
      push_cast
      nlinarith

theorem head?_dropWhile_false (p : Char → Bool) (l : Chars) (c : Char)
    (h : (l.dropWhile p).head? = some c) : p c = false := by
  induction l with
  | nil => simp [List.dropWhile] at h
  | cons a t ih =>
    rw [List.dropWhile_cons] at h
    by_cases hp : p a
    · rw [if_pos hp] at h
      exact ih h
    · rw [if_neg hp] at h
      simp only [List.head?_cons, Option.some.injEq] at h
      subst h
      simpa using hp

theorem mem_stripPy {c : Char} {s : Chars} (h : c ∈ stripPy s) : c ∈ s := by
  rw [stripPy] at h
  rw [List.mem_reverse] at h
  have h1 := (List.dropWhile_sublist wsPy).mem h
  rw [List.mem_reverse] at h1
  exact (List.dropWhile_sublist wsPy).mem h1

theorem stripPy_isPre (s : Chars) : stripPy s <+: s.dropWhile wsPy := by
  rw [stripPy]
  have h := List.dropWhile_suffix (l := (s.dropWhile wsPy).reverse) wsPy
  have := Iff.mpr List.reverse_prefix h
  simpa using this

theorem head?_stripPy_false (s : Chars) (c : Char)
    (h : (stripPy s).head? = some c) : wsPy c = false := by
  obtain ⟨t, ht⟩ := stripPy_isPre s
  apply head?_dropWhile_false wsPy s c
  rw [← ht]
  cases hsp : stripPy s with
  | nil => rw [hsp] at h; simp at h
  | cons a u =>
    rw [hsp] at h
    simp only [List.head?_cons, Option.some.injEq] at h
    subst h
    simp

theorem getLast?_stripPy_false (s : Chars) (c : Char)
    (h : (stripPy s).getLast? = some c) : wsPy c = false := by
  rw [stripPy, List.getLast?_reverse] at h
  exact head?_dropWhile_false wsPy _ c h

/-- C5: `clean_text` collapses each whitespace run to a single space,
then removes characters outside the allowed class, then trims the ends;
empty input yields the empty string and the function is total.  In
particular every output character is allowed, neither end of the output
is whitespace, and `clean_text "  Hello   World!! " = "Hello World!!"`. -/
theorem c5_clean_text_spec (t : Chars) :
    clean_text t = stripPy ((collapseWs t).filter allowedPy)
    ∧ (∀ c ∈ clean_text t, allowedPy c = true)
    ∧ (∀ c, (clean_text t).head? = some c → wsPy c = false)
    ∧ (∀ c, (clean_text t).getLast? = some c → wsPy c = false)
    ∧ clean_text [] = []
    ∧ clean_text (str "  Hello   World!! ") = str "Hello World!!" := by
  have hpipe : clean_text t = stripPy ((collapseWs t).filter allowedPy) := by
    by_cases h : t = []
    · subst h; rfl
    · rw [clean_text, if_neg (by simp [List.isEmpty_iff, h])]
  refine ⟨hpipe, ?_, ?_, ?_, by rfl, by decide⟩
  · intro c hc
    rw [hpipe] at hc
    exact (List.mem_filter.mp (mem_stripPy hc)).2
  · intro c hc
    rw [hpipe] at hc
    exact head?_stripPy_false _ c hc
  · intro c hc
    rw [hpipe] at hc
    exact getLast?_stripPy_false _ c hc

/-- C5 witness: the specification instantiated at the concrete input
`"  Hello   World!! "`. -/
theorem c5_clean_text_spec_witness :
    clean_text (str "  Hello   World!! ") = str "Hello World!!" :=
  (c5_clean_text_spec (str "  Hello   World!! ")).2.2.2.2.2

/-- C3, counterexample: extraction is not invariant under
self-concatenation — on `"ia"` no vocabulary term occurs, but `"iaia"`
contains `"ai"` across the seam, so the two result sets differ. -/
theorem c3_self_concat_counterexample :
    str "ai" ∈ extract_skills_from_text (str "ia" ++ str "ia")
      ∧ str "ai" ∉ extract_skills_from_text (str "ia") :=
  ⟨by decide, by decide⟩

/-- C3 (amended): self-concatenation can only grow the extracted skill
set — every skill extracted from `text` is also extracted from
`text ++ text` (equality can fail when a vocabulary term spans the
seam). -/
theorem c3_self_concat_monotone (text s : Chars)
    (h : s ∈ extract_skills_from_text text) :
    s ∈ extract_skills_from_text (text ++ text) := by
  rw [extract_skills_from_text, List.mem_filter] at h ⊢
  obtain ⟨hk, hsub⟩ := h
  refine ⟨hk, ?_⟩
  rw [containsSub_iff] at hsub ⊢
  rw [lowerStr, List.map_append]
  exact hsub.trans ⟨[], lowerStr text, by simp [lowerStr]⟩

/-- C3 witness: `"python"` is found in `"python"` and hence also in the
self-concatenation `"pythonpython"`. -/
theorem c3_self_concat_monotone_witness :
    str "python" ∈ extract_skills_from_text (str "python" ++ str "python") :=
  c3_self_concat_monotone (str "python") (str "python") (by decide)

theorem mem_of_headEq {l : List ExpEntry} {b : ExpEntry}
    (h : l.head? = some b) : b ∈ l := by
  cases l with
  | nil => simp at h
  | cons x xs =>
    simp only [List.head?_cons, Option.some.injEq] at h
    exact h ▸ List.mem_cons_self x xs

theorem insertDesc_append (e : ExpEntry) (A B : List ExpEntry)
    (hA : ∀ a ∈ A, ¬(keyOf a < keyOf e))
    (hB : ∀ b, B.head? = some b → keyOf b < keyOf e) :
    insertDesc e (A ++ B) = A ++ e :: B := by
  induction A with
  | nil =>
    simp only [List.nil_append]
    cases B with
    | nil => rfl
    | cons b bs => rw [insertDesc, if_pos (hB b rfl)]
  | cons a A' ih =>
    rw [List.cons_append, insertDesc, if_neg (hA a (by simp))]
    rw [ih (fun x hx => hA x (by simp [hx]))]
    rfl

theorem keyOf_of_mem_filtK {k : Nat} {l : List ExpEntry} {e : ExpEntry}
    (h : e ∈ filtK k l) : keyOf e = k := by
  rw [filtK, List.mem_filter] at h
  exact beq_iff_eq.mp h.2

theorem filtK_append (k : Nat) (p q : List ExpEntry) :
    filtK k (p ++ q) = filtK k p ++ filtK k q := by
  rw [filtK, filtK, filtK, List.filter_append]

theorem foldl_insertDesc : ∀ (l p : List ExpEntry),
    (∀ e ∈ l, 1 ≤ keyOf e ∧ keyOf e ≤ 3) →
    l.foldl (fun acc e => insertDesc e acc)
        (filtK 3 p ++ filtK 2 p ++ filtK 1 p)
      = filtK 3 (p ++ l) ++ filtK 2 (p ++ l) ++ filtK 1 (p ++ l)
  | [], p, _ => by simp
  | e :: l', p, h => by
    have hkey := h e (by simp)
    have hl' : ∀ x ∈ l', 1 ≤ keyOf x ∧ keyOf x ≤ 3 :=
      fun x hx => h x (by simp [hx])
    have hnotk : ∀ k, keyOf e ≠ k → filtK k [e] = [] := by
      intro k hk
      rw [filtK, List.filter_cons]
      simp [hk]
    have hyesk : filtK (keyOf e) [e] = [e] := by
      rw [filtK, List.filter_cons]
      simp
    rw [List.foldl_cons]
    have hstep : insertDesc e (filtK 3 p ++ filtK 2 p ++ filtK 1 p)
        = filtK 3 (p ++ [e]) ++ filtK 2 (p ++ [e]) ++ filtK 1 (p ++ [e]) := by
      have h3 := filtK_append 3 p [e]
      have h2 := filtK_append 2 p [e]
      have h1 := filtK_append 1 p [e]
      rcases (by omega :
          keyOf e = 1 ∨ keyOf e = 2 ∨ keyOf e = 3) with hk | hk | hk
      · have hins := insertDesc_append e
          ((filtK 3 p ++ filtK 2 p) ++ filtK 1 p) []
          (fun a ha => by
            rcases List.mem_append.mp ha with ha' | ha'
            · rcases List.mem_append.mp ha' with ha'' | ha''
              · have := keyOf_of_mem_filtK ha''
                omega
              · have := keyOf_of_mem_filtK ha''
                omega
            · have := keyOf_of_mem_filtK ha'
              omega)
          (fun b hb => by simp at hb)
        rw [List.append_nil] at hins
        have hy : filtK 1 [e] = [e] := by rw [← hk]; exact hyesk
        rw [hins, h3, h2, h1, hnotk 3 (by omega), hnotk 2 (by omega), hy]
        simp
      · have hins := insertDesc_append e
          (filtK 3 p ++ filtK 2 p) (filtK 1 p)
          (fun a ha => by
            rcases List.mem_append.mp ha with ha' | ha'
            · have := keyOf_of_mem_filtK ha'
              omega
            · have := keyOf_of_mem_filtK ha'
              omega)
          (fun b hb => by
            have := keyOf_of_mem_filtK (mem_of_headEq hb)
            omega)
        have hy : filtK 2 [e] = [e] := by rw [← hk]; exact hyesk
        rw [hins, h3, h2, h1, hnotk 3 (by omega), hnotk 1 (by omega), hy]
        simp
      · have hins := insertDesc_append e
          (filtK 3 p) (filtK 2 p ++ filtK 1 p)
          (fun a ha => by
            have := keyOf_of_mem_filtK ha
            omega)
          (fun b hb => by
            have hbm := mem_of_headEq hb
            rcases List.mem_append.mp hbm with hb' | hb'
            · have := keyOf_of_mem_filtK hb'
              omega
            · have := keyOf_of_mem_filtK hb'
              omega)
        have harg : filtK 3 p ++ filtK 2 p ++ filtK 1 p
            = filtK 3 p ++ (filtK 2 p ++ filtK 1 p) := by
          rw [List.append_assoc]
        have hy : filtK 3 [e] = [e] := by rw [← hk]; exact hyesk
        rw [harg, hins, h3, h2, h1, hnotk 2 (by omega), hnotk 1 (by omega), hy]
        simp
    rw [hstep, foldl_insertDesc l' (p ++ [e]) hl']
    simp

theorem sortByScoreDesc_eq (l : List ExpEntry)
    (h : ∀ e ∈ l, 1 ≤ keyOf e ∧ keyOf e ≤ 3) :
    sortByScoreDesc l = filtK 3 l ++ filtK 2 l ++ filtK 1 l := by
  have := foldl_insertDesc l [] h
  simpa [sortByScoreDesc, filtK] using this

theorem scoreExp_updateScore (kws : List Chars) (e : ExpEntry) :
    scoreExp kws (updateScore kws e) = scoreExp kws e := by
  rw [updateScore]
  split_ifs with h
  · cases e
    rfl
  · rfl

theorem scoreExp_le_three (kws : List Chars) (e : ExpEntry) :
    scoreExp kws e ≤ 3 := by
  rw [scoreExp]
  split_ifs <;> omega

theorem get_relevant_experience_eq (req : Chars) (es : List ExpEntry) :
    get_relevant_experience req es
      = (updOf req es, (sortByScoreDesc (relOf req es)).take 3) := by
  by_cases h : es = []
  · subst h
    rfl
  · rw [get_relevant_experience, if_neg (by simp [List.isEmpty_iff, h])]

theorem mem_relOf {req : Chars} {es : List ExpEntry} {e : ExpEntry}
    (h : e ∈ relOf req es) :
    0 < scoreOf req e ∧ e.relevance_score = some (scoreOf req e) := by
  rw [relOf, List.mem_filter] at h
  obtain ⟨hu, hs⟩ := h
  rw [decide_eq_true_eq] at hs
  rw [updOf, List.mem_map] at hu
  obtain ⟨x, hx, rfl⟩ := hu
  have hsx : scoreExp (kwsOf req) (updateScore (kwsOf req) x)
      = scoreExp (kwsOf req) x := scoreExp_updateScore _ _
  refine ⟨hs, ?_⟩
  by_cases h0 : 0 < scoreExp (kwsOf req) x
  · rw [updateScore, if_pos h0]
    rw [scoreOf]
    rw [updateScore, if_pos h0] at hsx
    rw [hsx]
  · exfalso
    rw [updateScore, if_neg h0] at hs
    exact h0 hs

theorem keyOf_of_mem_relOf {req : Chars} {es : List ExpEntry} {e : ExpEntry}
    (h : e ∈ relOf req es) : keyOf e = scoreOf req e := by
  obtain ⟨_, hrs⟩ := mem_relOf h
  rw [keyOf, hrs]
  rfl

theorem relOf_key_bounds (req : Chars) (es : List ExpEntry) :
    ∀ e ∈ relOf req es, 1 ≤ keyOf e ∧ keyOf e ≤ 3 := by
  intro e he
  obtain ⟨hpos, _⟩ := mem_relOf he
  have hk := keyOf_of_mem_relOf he
  have hle : scoreOf req e ≤ 3 := scoreExp_le_three _ _
  omega

/-- C4: `get_relevant_experience` returns at most three entries, every
returned entry has its `relevance_score` set to its positive score
(2 for a title keyword hit plus 1 for a description keyword hit, hence
between 1 and 3), and the returned list is exactly the positive-score
entries grouped by descending score with ties in original order,
truncated to three. -/
theorem c4_relevant_experience_spec (req : Chars) (es : List ExpEntry) :
    ((get_relevant_experience req es).2).length ≤ 3
    ∧ (∀ e ∈ (get_relevant_experience req es).2,
        e.relevance_score = some (scoreOf req e)
        ∧ scoreOf req e
            = (if titleHit (kwsOf req) e then 2 else 0)
              + (if descHit (kwsOf req) e then 1 else 0)
        ∧ 0 < scoreOf req e ∧ scoreOf req e ≤ 3)
    ∧ (get_relevant_experience req es).2
        = (filtK 3 (relOf req es) ++ filtK 2 (relOf req es)
            ++ filtK 1 (relOf req es)).take 3 := by
  rw [get_relevant_experience_eq]
  have hsort := sortByScoreDesc_eq (relOf req es) (relOf_key_bounds req es)
  refine ⟨List.length_take_le 3 _, ?_, by rw [hsort]⟩
  intro e he
  have he' : e ∈ sortByScoreDesc (relOf req es) := List.take_subset _ _ he
  rw [hsort] at he'
  have hmem : e ∈ relOf req es := by
    rcases List.mem_append.mp he' with h' | h'
    · rcases List.mem_append.mp h' with h'' | h''
      · exact List.mem_of_mem_filter h''
      · exact List.mem_of_mem_filter h''
    · exact List.mem_of_mem_filter h'
  obtain ⟨hpos, hrs⟩ := mem_relOf hmem
  exact ⟨hrs, rfl, hpos, scoreExp_le_three _ _⟩

/-- C4 witness: the specification instantiated on one concrete entry
whose title and description both mention a requirement keyword. -/
theorem c4_relevant_experience_spec_witness :
    ((get_relevant_experience (str "python developer")
        [⟨some (str "python engineer"), none, none,
          some (str "wrote python services"), none⟩]).2).length ≤ 3 :=
  (c4_relevant_experience_spec (str "python developer")
    [⟨some (str "python engineer"), none, none,
      some (str "wrote python services"), none⟩]).1

theorem forall2_map_of (P : ExpEntry → ExpEntry → Prop) (f : ExpEntry → ExpEntry)
    (hf : ∀ x, P x (f x)) : ∀ l : List ExpEntry, List.Forall₂ P l (l.map f)
  | [] => List.Forall₂.nil
  | x :: t => List.Forall₂.cons (hf x) (forall2_map_of P f hf t)

/-- C8, counterexample: `get_relevant_experience` writes
`relevance_score` into its argument's entry dicts, so the input records
do not survive a call unchanged. -/
theorem c8_mutation_counterexample :
    (get_relevant_experience (str "python")
        [⟨some (str "python developer"), none, none, none, none⟩]).1
      ≠ [⟨some (str "python developer"), none, none, none, none⟩] := by
  decide

/-- C8 (amended): `get_skill_matches` reads its argument lists without
modifying them (it builds normalized copies), and `get_relevant_experience`
leaves every field of every input entry unchanged except that it
writes `relevance_score := score` into each entry whose score is
positive; zero-score entries are returned exactly as given. -/
theorem c8_relevant_experience_frame (req : Chars) (es : List ExpEntry) :
    List.Forall₂ (fun o u =>
        u.title = o.title ∧ u.company = o.company ∧ u.period = o.period
        ∧ u.description = o.description
        ∧ (0 < scoreOf req o → u.relevance_score = some (scoreOf req o))
        ∧ (scoreOf req o = 0 → u = o))
      es (get_relevant_experience req es).1 := by
  rw [get_relevant_experience_eq]
  refine forall2_map_of _ _ ?_ es
  intro x
  rw [updateScore]
  by_cases h0 : 0 < scoreExp (kwsOf req) x
  · rw [if_pos h0]
    exact ⟨rfl, rfl, rfl, rfl, fun _ => rfl, fun hz => by
      rw [scoreOf] at hz
      omega⟩
  · rw [if_neg h0]
    exact ⟨rfl, rfl, rfl, rfl, fun hp => absurd hp h0, fun _ => rfl⟩

/-- C8 witness: the frame property instantiated on a concrete call with
one zero-score entry, whose record is returned untouched. -/
theorem c8_relevant_experience_frame_witness :
    List.Forall₂ (fun o u =>
        u.title = o.title ∧ u.company = o.company ∧ u.period = o.period
        ∧ u.description = o.description
        ∧ (0 < scoreOf (str "rust") o → u.relevance_score = some (scoreOf (str "rust") o))
        ∧ (scoreOf (str "rust") o = 0 → u = o))
      [⟨some (str "chef"), none, none, none, none⟩]
      (get_relevant_experience (str "rust")
        [⟨some (str "chef"), none, none, none, none⟩]).1 :=
  c8_relevant_experience_frame (str "rust")
    [⟨some (str "chef"), none, none, none, none⟩]

/-- C2, counterexample: the parse pipeline applied to
`"Education\nMIT\n2020\nExperience\nEngineer at X\n2019-2021"` does not
produce a one-entry education bucket — `clean_text` collapses the
newlines first, so section segmentation sees a single line (consumed as
an education header) and both buckets come out empty. -/
theorem c2_pipeline_counterexample :
    (resumeEducationPipeline c2text).length ≠ 1 := by decide

/-- C2 (amended): on that text the pipeline yields empty education and
experience buckets: normalization rewrites the text to the single line
`"Education MIT 2020 Experience Engineer at X 2019-2021"`, which the
segmenter treats as a section header with no following content. -/
theorem c2_pipeline_empty_buckets :
    resumeEducationPipeline c2text = []
      ∧ resumeExperiencePipeline c2text = []
      ∧ clean_text c2text
          = str "Education MIT 2020 Experience Engineer at X 2019-2021" := by
  refine ⟨by decide, by decide, by decide⟩

example : (extract_sections c2text SectionTag.education).getD []
    = str "MIT\n2020" := by decide

example : extract_education (str "MIT\n2020")
    = [⟨none, none, some (str "2020"), none⟩] := by decide

example : extract_experience (str "Engineer at X\n2019-2021")
    = [⟨some (str "Engineer at X"), none, none, none, none⟩,
       ⟨none, none, some (str "2019-2021"), none, none⟩] := by decide

/-- C9: an upload whose lowercased extension is not `.pdf`/`.docx`/`.doc`
makes `parse_resume` fail whatever the decoders do, and
`validate_file_upload` accepts exactly the present files with a
supported extension and size at most 10 MiB. -/
theorem c9_upload_gatekeeping
    (decodePdf decodeDocx : UploadedFile → Except Chars Chars)
    (f : UploadedFile) (upload : Option UploadedFile) :
    (get_file_extension f.name ∉ SUPPORTED_FILE_TYPES →
      parse_resume decodePdf decodeDocx f
        = Except.error (str "unsupported file format"))
    ∧ ((validate_file_upload upload).valid = true ↔
        ∃ g, upload = some g
          ∧ get_file_extension g.name ∈ SUPPORTED_FILE_TYPES
          ∧ g.size ≤ MAX_FILE_SIZE) := by
  constructor
  · intro hext
    simp only [SUPPORTED_FILE_TYPES, List.mem_cons, List.not_mem_nil,
      not_or, or_false] at hext
    obtain ⟨h1, h2, h3⟩ := hext
    rw [parse_resume]
    rw [if_neg h1, if_neg (by simp [h2, h3])]
  · cases upload with
    | none =>
      simp [validate_file_upload]
    | some g =>
      rw [validate_file_upload]
      by_cases hext : get_file_extension g.name ∈ SUPPORTED_FILE_TYPES
      · rw [if_neg (by simp [hext])]
        by_cases hsz : MAX_FILE_SIZE < g.size
        · rw [if_pos hsz]
          simp only [Bool.false_eq_true, false_iff]
          rintro ⟨g', hg', _, hsz'⟩
          cases hg'
          omega
        · rw [if_neg hsz]
          simp only [true_iff]
          exact ⟨g, rfl, hext, by omega⟩
      · rw [if_pos (by simp [hext])]
        simp only [Bool.false_eq_true, false_iff]
        rintro ⟨g', hg', hmem, _⟩
        cases hg'
        exact hext hmem

/-- C9 witness: a `.txt` upload fails `parse_resume` (with decoders
that would happily return text), and an in-range `.pdf` upload
validates. -/
theorem c9_upload_gatekeeping_witness :
    parse_resume (fun _ => Except.ok []) (fun _ => Except.ok [])
        ⟨str "resume.txt", 100⟩
      = Except.error (str "unsupported file format")
    ∧ (validate_file_upload (some ⟨str "resume.pdf", 100⟩)).valid = true := by
  constructor
  · exact (c9_upload_gatekeeping (fun _ => Except.ok []) (fun _ => Except.ok [])
      ⟨str "resume.txt", 100⟩ none).1 (by decide)
  · exact (c9_upload_gatekeeping (fun _ => Except.ok []) (fun _ => Except.ok [])
      ⟨str "resume.txt", 100⟩ (some ⟨str "resume.pdf", 100⟩)).2.mpr
      ⟨⟨str "resume.pdf", 100⟩, rfl, by decide, by decide⟩

/-- C7: the canonical-brand branches are dead for ordinary job-board
URLs — `'.com'` has already been stripped when `'linkedin.com' in
domain` is tested — so a LinkedIn posting URL yields the title-cased
label `"Linkedin"`, not the canonical `"LinkedIn"` the branch (and the
spec) intend. -/
theorem c7_company_from_url_bug :
    extract_company_name_from_url (str "https://www.linkedin.com/jobs/view/1")
        = str "Linkedin"
      ∧ str "Linkedin" ≠ str "LinkedIn" := by
  refine ⟨by decide, by decide⟩

example :
    extract_company_name_from_url (str "https://www.indeed.com/viewjob?jk=1")
      = str "Indeed" := by decide

example :
    extract_company_name_from_url (str "https://acme.com/careers")
      = str "Acme" := by decide

theorem cascadeTitle_none (s : Soup) : ∀ sels : List Chars,
    (∀ sel ∈ sels, ∀ txt, s.selectOne sel = some txt →
      ¬(3 < (clean_text txt).length)) →
    cascadeTitle s sels = none
  | [], _ => rfl
  | sel :: rest, h => by
    rw [cascadeTitle]
    cases hso : s.selectOne sel with
    | none => exact cascadeTitle_none s rest (fun x hx => h x (by simp [hx]))
    | some txt =>
      have hlen := h sel (by simp) txt hso
      have hcond : ¬((!List.isEmpty (clean_text txt)
          && decide (3 < List.length (clean_text txt))) = true) := by
        simp [hlen]
      show (if (!List.isEmpty (clean_text txt)
            && decide (3 < List.length (clean_text txt))) = true
          then some (clean_text txt) else cascadeTitle s rest) = none
      rw [if_neg hcond]
      exact cascadeTitle_none s rest (fun x hx => h x (by simp [hx]))

/-- C6: when no selector of the title cascade qualifies (each one's
element is absent or its cleaned text fails the length gate), the
extractor returns the page `<title>`'s cleaned text with the job-board
suffix pattern stripped — and, being a total function of the page data,
it raises nothing. -/
theorem c6_title_fallback (s : Soup) (t : Chars)
    (hsel : ∀ sel ∈ title_selectors, ∀ txt, s.selectOne sel = some txt →
      ¬(3 < (clean_text txt).length))
    (ht : s.findTitle = some t) :
    extract_job_title s = stripTitleSuffix (clean_text t) := by
  rw [extract_job_title, cascadeTitle_none s title_selectors hsel, ht]

/-- C6 witness: a page with no usable selector elements and title
`"Software Engineer - LinkedIn"` yields `"Software Engineer"`. -/
theorem c6_title_fallback_witness :
    extract_job_title ⟨fun _ => none, some (str "Software Engineer - LinkedIn")⟩
      = str "Software Engineer" :=
  (c6_title_fallback ⟨fun _ => none, some (str "Software Engineer - LinkedIn")⟩
    (str "Software Engineer - LinkedIn")
    (fun _ _ _ h => by cases h) rfl).trans (by decide)

